import Mathlib

/-!
Verification development for the electoral-roll extraction pipeline
(`electoral_roll_pipeline.py`).  Strings are modelled as `List Char`;
each Python regex used by the pipeline is embedded as an explicit
matching function with the same leftmost-search and backtracking
semantics on its concrete pattern.
-/

set_option maxRecDepth 20000

/-- Characters matched by Python's `\s` (and stripped by `str.strip()`). -/
def isPySpace (c : Char) : Bool :=
  let n := c.toNat
  n == 32 || n == 9 || n == 10 || n == 13 || n == 11 || n == 12 ||
  (Nat.ble 28 n && Nat.ble n 31) || n == 133 || n == 160 || n == 5760 ||
  (Nat.ble 8192 n && Nat.ble n 8202) || n == 8232 || n == 8233 ||
  n == 8239 || n == 8287 || n == 12288

/-- The separator class `[:+!]` used by all labeled-field patterns. -/
def isSepC (c : Char) : Bool := c == ':' || c == '+' || c == '!'

/-- The characters stripped by `rstrip("-~")` in `clean`. -/
def isDashTilde (c : Char) : Bool := c == '-' || c == '~'

/-- Apostrophe character (used by the `(?:'s)?` part of relation labels). -/
def apos : Char := Char.ofNat 39

/-- Replace each maximal run of characters satisfying `p` by the single
character `rep`; the flag records whether we are inside a run.
Embeds `re.sub(p_run, rep, s)` for a character-class run pattern. -/
def collapseRunsGo (p : Char → Bool) (rep : Char) : Bool → List Char → List Char
  | _, [] => []
  | inRun, c :: rest =>
    if p c then
      (if inRun then collapseRunsGo p rep true rest
       else rep :: collapseRunsGo p rep true rest)
    else c :: collapseRunsGo p rep false rest

/-- `re.sub(r"\s+", " ", s)`. -/
def collapseWs (s : List Char) : List Char := collapseRunsGo isPySpace ' ' false s

/-- `re.sub(r"[ \t]+", " ", s)` (newlines preserved), used by `parse_page`. -/
def isHT (c : Char) : Bool := c == ' ' || c == '\t'

def collapseHT (s : List Char) : List Char := collapseRunsGo isHT ' ' false s

/-- `re.sub(r"/+", "/", s)`, used by `normalize_house_no`. -/
def collapseSlashes (s : List Char) : List Char := collapseRunsGo (· == '/') '/' false s

/-- Drop characters satisfying `p` from the right end. -/
def rdropW (p : Char → Bool) (l : List Char) : List Char :=
  (l.reverse.dropWhile p).reverse

/-- Python `str.strip()`. -/
def stripPy (l : List Char) : List Char := rdropW isPySpace (l.dropWhile isPySpace)

/-- Python `str.rstrip("-~")`. -/
def rstripDT (l : List Char) : List Char := rdropW isDashTilde l

/-- Python `str.upper()` (ASCII letters; identity elsewhere). -/
def upperList (l : List Char) : List Char := l.map Char.toUpper

/-- Python `str.capitalize()`: first character uppercased, rest lowercased. -/
def pyCapitalize : List Char → List Char
  | [] => []
  | c :: rest => c.toUpper :: rest.map Char.toLower

/-- Does the text start with the (case-insensitive) letters `Name`? -/
def isNameCI (c1 c2 c3 c4 : Char) : Bool :=
  c1.toLower == 'n' && c2.toLower == 'a' && c3.toLower == 'm' && c4.toLower == 'e'

/-- After the letters `Name`: `\s*` then one of `[:+!]`. -/
def sepAfterWs (l : List Char) : Bool :=
  match l.dropWhile isPySpace with
  | c :: _ => isSepC c
  | [] => false

/-- Does the pattern `Name\s*[:+!]` (case-insensitive) match at the head? -/
def labelAt : List Char → Bool
  | c1 :: c2 :: c3 :: c4 :: rest => isNameCI c1 c2 c3 c4 && sepAfterWs rest
  | _ => false

/-- Index of the leftmost `Name\s*[:+!]` label occurrence, if any. -/
def findLabelIdx : List Char → Option Nat
  | [] => none
  | l@(_ :: rest) => if labelAt l then some 0 else (findLabelIdx rest).map (· + 1)

/-- `re.sub(r"\s*(Name\s*[:+!].*)", "", s, flags=re.IGNORECASE)` on a string
without newlines: everything from the leftmost label (with the whitespace
run in front of it, removed by the final `strip`) to the end is deleted. -/
def cutNameLabel (l : List Char) : List Char :=
  match findLabelIdx l with
  | some j => l.take j
  | none => l

/-- `clean` from the pipeline: collapse whitespace, strip, strip trailing
`-`/`~`, strip, remove a trailing `Name...` label fragment, strip. -/
def clean (s : List Char) : List Char :=
  if s = [] then []
  else stripPy (cutNameLabel (stripPy (rstripDT (stripPy (collapseWs s)))))

/-- Matcher for `^([0-9/]+)([A-Za-z]?)$` (Python `re.match`, `$` also
accepting a single trailing newline), returning the two groups. -/
def isDigitSlash (c : Char) : Bool := c.isDigit || c == '/'

def matchHouseShape (l : List Char) : Option (List Char × List Char) :=
  let num := l.takeWhile isDigitSlash
  let rest := l.drop num.length
  if num = [] then none
  else
    match rest with
    | [] => some (num, [])
    | [c] =>
      if c == '\n' then some (num, [])
      else if c.isAlpha then some (num, [c]) else none
    | [c, d] => if c.isAlpha && d == '\n' then some (num, [c]) else none
    | _ => none

/-- The transformation steps of `normalize_house_no` before validation:
strip, remove commas, turn `-` into `/`, collapse repeated slashes. -/
def houseTransform (h : List Char) : List Char :=
  collapseSlashes (((stripPy h).filter (fun c => !(c == ','))).map
    (fun c => if c == '-' then '/' else c))

/-- `normalize_house_no` from the pipeline. -/
def normalize_house_no (h : List Char) : List Char :=
  if h = [] then []
  else
    match matchHouseShape (houseTransform h) with
    | some (num, suf) => num ++ suf.map Char.toUpper
    | none => []

/-- Match a literal string at the head, returning the rest on success. -/
def expectLit : List Char → List Char → Option (List Char)
  | [], l => some l
  | _ :: _, [] => none
  | p :: ps, c :: cs => if c == p then expectLit ps cs else none

/-- `\s*[:+!]`: skip the (maximal) whitespace run, require a separator. -/
def sepThen (l : List Char) : Option (List Char) :=
  match l.dropWhile isPySpace with
  | c :: rest => if isSepC c then some rest else none
  | [] => none

/-- Backtracking step for `\s*([^X]+)` when the greedy `\s*` left nothing
capturable: give whitespace characters back from the right until one is
capturable, then capture greedily from there. -/
def backScan (keep : Char → Bool) : List Char → List Char → Option (List Char)
  | [], _ => none
  | c :: wsRev, tail =>
    if keep c then some ((c :: tail).takeWhile keep)
    else backScan keep wsRev (c :: tail)

/-- `\s*(<keep-class>+)` with greedy `\s*` and greedy capture. -/
def valueCapture (keep : Char → Bool) (l : List Char) : Option (List Char) :=
  let ws := l.takeWhile isPySpace
  let r3 := l.drop ws.length
  match r3 with
  | c :: _ => if keep c then some (r3.takeWhile keep) else backScan keep ws.reverse r3
  | [] => backScan keep ws.reverse []

/-- Character class `[^\n]` used by the name/relation value captures. -/
def keepName (c : Char) : Bool := !(c == '\n')

/-- Character class `[^\n ]` used by the house-number value capture. -/
def keepHouse (c : Char) : Bool := !(c == '\n' || c == ' ')

/-- `re.search`: try the matcher at each position, leftmost first. -/
def searchAux (f : List Char → Option (List Char)) : List Char → Option (List Char)
  | [] => f []
  | l@(_ :: rest) =>
    match f l with
    | some r => some r
    | none => searchAux f rest

/-- `Name\s*[:+!]\s*([^\n]+)` at a position. -/
def matchNameAt (l : List Char) : Option (List Char) :=
  match expectLit (("Name").toList) l with
  | some r1 =>
    match sepThen r1 with
    | some r2 => valueCapture keepName r2
    | none => none
  | none => none

/-- `<who>(?:'s)? Name\s*[:+!]\s*([^\n]+)` at a position, with the
backtracking of the optional `'s` group. -/
def relTail (r : List Char) : Option (List Char) :=
  match expectLit ((" Name").toList) r with
  | some r2 =>
    match sepThen r2 with
    | some r3 => valueCapture keepName r3
    | none => none
  | none => none

def matchRelAt (who : List Char) (l : List Char) : Option (List Char) :=
  match expectLit who l with
  | some r0 =>
    match expectLit (apos :: 's' :: []) r0 with
    | some r1 =>
      match relTail r1 with
      | some g => some g
      | none => relTail r0
    | none => relTail r0
  | none => none

def matchFatherAt (l : List Char) : Option (List Char) := matchRelAt (("Father").toList) l

def matchHusbandAt (l : List Char) : Option (List Char) := matchRelAt (("Husband").toList) l

def matchMotherAt (l : List Char) : Option (List Char) := matchRelAt (("Mother").toList) l

/-- `House\s*Number\s*[:+!]\s*([^\n ]+)` at a position. -/
def matchHouseAt (l : List Char) : Option (List Char) :=
  match expectLit (("House").toList) l with
  | some r0 =>
    match expectLit (("Number").toList) (r0.dropWhile isPySpace) with
    | some r2 =>
      match sepThen r2 with
      | some r3 => valueCapture keepHouse r3
      | none => none
    | none => none
  | none => none

/-- `Age\s*[:+!]\s*(\d+)` at a position. -/
def matchAgeAt (l : List Char) : Option (List Char) :=
  match expectLit (("Age").toList) l with
  | some r1 =>
    match sepThen r1 with
    | some r2 =>
      let ds := (r2.dropWhile isPySpace).takeWhile Char.isDigit
      if ds = [] then none else some ds
    | none => none
  | none => none

/-- The alternation `(Male|Female|ஆண்|பெண்)`, alternatives tried in order. -/
def genderTokens : List (List Char) :=
  [("Male").toList, ("Female").toList, ("ஆண்").toList, ("பெண்").toList]

def matchAlt : List (List Char) → List Char → Option (List Char)
  | [], _ => none
  | t :: ts, l => if t.isPrefixOf l then some t else matchAlt ts l

/-- `Gender\s*[:+!]\s*(Male|Female|ஆண்|பெண்)` at a position. -/
def matchGenderAt (l : List Char) : Option (List Char) :=
  match expectLit (("Gender").toList) l with
  | some r1 =>
    match sepThen r1 with
    | some r2 => matchAlt genderTokens (r2.dropWhile isPySpace)
    | none => none
  | none => none

/-- `Part No\.:(\w+)` at a position. -/
def isWordChar (c : Char) : Bool := c.isAlphanum || c == '_'

def matchPartNoAt (l : List Char) : Option (List Char) :=
  match expectLit (("Part No.:").toList) l with
  | some r =>
    let w := r.takeWhile isWordChar
    if w = [] then none else some w
  | none => none

/-- Terminator `(?:\n|Part No)` of the section pattern. -/
def termAt (l : List Char) : Bool :=
  match l with
  | c :: _ => c == '\n' || (("Part No").toList).isPrefixOf l
  | [] => false

/-- Lazy `(.+?)(?:\n|Part No)` starting right after the consumed `\s+`:
consume at least one non-newline character, then stop at the first
terminator position. -/
def sectionValueGo : List Char → List Char → Option (List Char)
  | acc, rest =>
    if termAt rest then some acc.reverse
    else
      match rest with
      | [] => none
      | d :: r2 => if d == '\n' then none else sectionValueGo (d :: acc) r2

def sectionValue : List Char → Option (List Char)
  | [] => none
  | c :: rest => if c == '\n' then none else sectionValueGo [c] rest

/-- Greedy `\s+` with backtracking: try the maximal run first, then give
back one whitespace character at a time (keeping at least one). -/
def sectionSLens : List Char → List Char → Option (List Char)
  | wsRev, cur =>
    match sectionValue cur with
    | some g => some g
    | none =>
      match wsRev with
      | [] => none
      | [_] => none
      | c :: wsRev2 => sectionSLens wsRev2 (c :: cur)

/-- `Section No and Name\s+(.+?)(?:\n|Part No)` at a position. -/
def matchSectionAt (l : List Char) : Option (List Char) :=
  match expectLit (("Section No and Name").toList) l with
  | some r =>
    let ws := r.takeWhile isPySpace
    if ws = [] then none
    else sectionSLens ws.reverse (r.drop ws.length)
  | none => none

/-- `[A-Z]{2,3}\d{7}` at a position, greedy on the letter count. -/
def takeCount (p : Char → Bool) : Nat → List Char → Option (List Char × List Char)
  | 0, l => some ([], l)
  | _ + 1, [] => none
  | n + 1, c :: cs =>
    if p c then
      match takeCount p n cs with
      | some (a, r) => some (c :: a, r)
      | none => none
    else none

def matchIdWith (k : Nat) (l : List Char) : Option (List Char) :=
  match takeCount Char.isUpper k l with
  | some (ls, r) =>
    match takeCount Char.isDigit 7 r with
    | some (ds, _) => some (ls ++ ds)
    | none => none
  | none => none

def matchVoterIdAt (l : List Char) : Option (List Char) :=
  match matchIdWith 3 l with
  | some m => some m
  | none => matchIdWith 2 l

/-- `VOTER_ID_PAT.finditer`: non-overlapping leftmost matches with their
start offsets.  The fuel argument (initialised to more than the text
length) only serves termination; every step consumes at least one
character, so it never runs out. -/
def finditerGo : Nat → Nat → List Char → List (Nat × List Char)
  | 0, _, _ => []
  | fuel + 1, pos, l =>
    match matchVoterIdAt l with
    | some m => (pos, m) :: finditerGo fuel (pos + m.length) (l.drop m.length)
    | none =>
      match l with
      | [] => []
      | _ :: rest => finditerGo fuel (pos + 1) rest

def finditerVoterId (l : List Char) : List (Nat × List Char) :=
  finditerGo (l.length + 1) 0 l

/-- The partial record produced by `parse_block`. -/
structure FieldRec where
  name : List Char
  relation_type : List Char
  relation_name : List Char
  house_number : List Char
  age : List Char
  gender : List Char
deriving DecidableEq

/-- The denylist `BAD_NAMES`. -/
def BAD_NAMES : List (List Char) :=
  [("26-VELACHERY").toList, ("VELACHERY").toList, ("3-CHENNAI SOUTH").toList,
   ("CHENNAI SOUTH").toList, ("ELECTORAL ROLL").toList, ("ASSEMBLY CONSTITUENCY").toList]

/-- Substring test (Python `in` on strings). -/
def isSub (pat : List Char) : List Char → Bool
  | [] => pat.isPrefixOf []
  | l@(_ :: rest) => pat.isPrefixOf l || isSub pat rest

def startsWithDigit : List Char → Bool
  | c :: _ => c.isDigit
  | [] => false

/-- The guards applied to the raw name in `parse_block`. -/
def nameGuard (name0 : List Char) : List Char :=
  let name1 :=
    if isSub (("NAME").toList) (upperList name0) || name0.contains '-' || name0.contains '=' then []
    else name0
  if BAD_NAMES.contains (upperList name1) || startsWithDigit name1 then [] else name1

def nameOf (block : List Char) : List Char :=
  nameGuard (match searchAux matchNameAt block with
    | some g => clean g
    | none => [])

/-- Relation extraction: father, then husband, then mother; first hit wins. -/
def relationOf (block : List Char) : List Char × List Char :=
  match searchAux matchFatherAt block with
  | some g => (("S/O").toList, clean g)
  | none =>
    match searchAux matchHusbandAt block with
    | some g => (("W/O").toList, clean g)
    | none =>
      match searchAux matchMotherAt block with
      | some g => (("C/O").toList, clean g)
      | none => ([], [])

def houseOf (block : List Char) : List Char :=
  match searchAux matchHouseAt block with
  | some g => normalize_house_no (clean g)
  | none => []

def ageOf (block : List Char) : List Char :=
  match searchAux matchAgeAt block with
  | some g => g
  | none => []

/-- The gender mapping applied to the captured token (or `""`). -/
def genderValue (tok : List Char) : List Char :=
  if tok = ("ஆண்").toList then ("Male").toList
  else if tok = ("பெண்").toList then ("Female").toList
  else pyCapitalize tok

def genderOf (block : List Char) : List Char :=
  genderValue (match searchAux matchGenderAt block with
    | some g => g
    | none => [])

/-- `parse_block` from the pipeline. -/
def parse_block (block : List Char) : FieldRec :=
  { name := nameOf block
    relation_type := (relationOf block).1
    relation_name := (relationOf block).2
    house_number := houseOf block
    age := ageOf block
    gender := genderOf block }

/-- `completeness`: count of non-empty values among name, age, gender,
house_number. -/
def completeness (f : FieldRec) : Nat :=
  (if f.name ≠ [] then 1 else 0) + (if f.age ≠ [] then 1 else 0) +
  (if f.gender ≠ [] then 1 else 0) + (if f.house_number ≠ [] then 1 else 0)

def emptyRec : FieldRec := ⟨[], [], [], [], [], []⟩

/-- The three candidate extractions for one anchor, in evaluation order:
after-window, before-window, combined window. -/
def candidatesOf (beforeB afterB : List Char) : List FieldRec :=
  [parse_block afterB, parse_block beforeB, parse_block (beforeB ++ '\n' :: afterB)]

/-- Python `max(_, key=completeness)`: keeps the first of the maxima. -/
def pyMaxGo : FieldRec → List FieldRec → FieldRec
  | best, [] => best
  | best, x :: xs => pyMaxGo (if completeness best < completeness x then x else best) xs

def pyMax3 : List FieldRec → FieldRec
  | [] => emptyRec
  | x :: xs => pyMaxGo x xs

/-- A full voter record. -/
structure Row where
  voter_id : List Char
  name : List Char
  relation_type : List Char
  relation_name : List Char
  house_number : List Char
  age : List Char
  gender : List Char
  part_no : List Char
  sect : List Char
  page : Nat
  constituency : List Char
  parliamentary_constituency : List Char
deriving DecidableEq

/-- The per-anchor loop of `parse_page`: window construction, candidate
selection and record assembly. -/
def pageLoop (tc : List Char) (n : Nat) (partNo sectv : List Char) (pg : Nat) :
    Nat → List (Nat × List Char) → List Row
  | _, [] => []
  | prevPos, (pos, vid) :: rest =>
    let nextPos := match rest with | (p2, _) :: _ => p2 | [] => n
    let afterB := (tc.drop pos).take (nextPos - pos)
    let beforeB := (tc.drop prevPos).take (pos - prevPos)
    let best := pyMax3 (candidatesOf beforeB afterB)
    { voter_id := vid, name := best.name, relation_type := best.relation_type,
      relation_name := best.relation_name, house_number := best.house_number,
      age := best.age, gender := best.gender, part_no := partNo, sect := sectv,
      page := pg, constituency := (("26-VELACHERY").toList),
      parliamentary_constituency := (("3-CHENNAI SOUTH").toList) }
      :: pageLoop tc n partNo sectv pg pos rest

/-- `parse_page` from the pipeline. -/
def parse_page (text : List Char) (page_num : Nat) : List Row :=
  let tc := collapseHT text
  let partNo := match searchAux matchPartNoAt tc with | some g => g | none => []
  let sectv := match searchAux matchSectionAt tc with | some g => clean g | none => []
  pageLoop tc tc.length partNo sectv page_num 0 (finditerVoterId tc)

/-- The raw record sequence of `json_to_csv`: pages parsed in order,
results concatenated. -/
def allVoters : List (Nat × List Char) → List Row
  | [] => []
  | (pg, txt) :: rest => parse_page txt pg ++ allVoters rest

/-- The dedup key: (uppercased stripped name, stripped house number). -/
def rowKey (r : Row) : List Char × List Char :=
  (upperList (stripPy r.name), stripPy r.house_number)

/-- The cleaning loop of `json_to_csv`: drop rows with empty stripped
name/house, then keep only the first row for each key. -/
def cleanRowsGo : List (List Char × List Char) → List Row → List Row
  | _, [] => []
  | seen, r :: rs =>
    if stripPy r.name = [] ∨ stripPy r.house_number = [] then cleanRowsGo seen rs
    else if rowKey r ∈ seen then cleanRowsGo seen rs
    else r :: cleanRowsGo (rowKey r :: seen) rs

def cleanRows (rows : List Row) : List Row := cleanRowsGo [] rows

/-- Validity per the spec: stripped name and house number are non-empty. -/
def validRow (r : Row) : Bool :=
  !(decide (stripPy r.name = [])) && !(decide (stripPy r.house_number = []))

/-- Modelled from the spec (§4.8): first-wins deduplication by `rowKey`,
used as the reference implementation for the cleaning postcondition. -/
def dedupFirstKey : List Row → List Row
  | [] => []
  | r :: rs => r :: dedupFirstKey (rs.filter fun x => !(decide (rowKey x = rowKey r)))
  termination_by l => l.length
  decreasing_by
    simp only [List.length_cons]
    exact Nat.lt_succ_of_le (List.length_filter_le _ _)

/-- The spec's canonical house-number shape: one or more characters drawn
from digits and `/`, optionally followed by exactly one trailing
uppercase letter. -/
def houseShapeOk (l : List Char) : Bool :=
  let body := l.takeWhile isDigitSlash
  let rest := l.drop body.length
  !(decide (body = [])) &&
    (match rest with
     | [] => true
     | [c] => c.isUpper
     | _ => false)

/-- Page 1 of the end-to-end scenario of the spec (§8). -/
def scenarioPage1 : List Char :=
  ("Part No.:12 Section No and Name Ward 5 Part No.:12 AB1234567 Name:RAMESH KUMAR Age:34 Gender:Male House Number:45A").toList

/-- Page 2 of the end-to-end scenario: the identical voter block with
voter id CD7654321 in place of AB1234567. -/
def scenarioPage2 : List Char :=
  ("Part No.:12 Section No and Name Ward 5 Part No.:12 CD7654321 Name:RAMESH KUMAR Age:34 Gender:Male House Number:45A").toList

/-- The raw record sequence of the end-to-end scenario. -/
def scenarioRaw : List Row := allVoters [(1, scenarioPage1), (2, scenarioPage2)]

/-- A sample record used to instantiate quantified theorems. -/
def sampleRowA : Row :=
  { voter_id := ("AB1234567").toList, name := ("RAVI").toList, relation_type := [],
    relation_name := [], house_number := ("12").toList, age := ("30").toList,
    gender := ("Male").toList, part_no := ("7").toList, sect := [], page := 1,
    constituency := [], parliamentary_constituency := [] }

/-- A second sample record with the same dedup key but a different
voter id and page. -/
def sampleRowB : Row :=
  { voter_id := ("CD7654321").toList, name := ("ravi").toList, relation_type := [],
    relation_name := [], house_number := ("12").toList, age := [], gender := [],
    part_no := ("8").toList, sect := [], page := 2, constituency := [],
    parliamentary_constituency := [] }

/-- `m` occurs contiguously inside `x`. -/
def embIn (x m : List Char) : Prop := ∃ u v, x = u ++ m ++ v

/-- Adjacent characters are never both whitespace. -/
def wsPair (a b : Char) : Prop := ¬(isPySpace a = true ∧ isPySpace b = true)

/-- The shape of whitespace-collapsed text: every whitespace character is
a single space and no two adjacent characters are whitespace. -/
def WsNorm (l : List Char) : Prop :=
  (∀ c ∈ l, isPySpace c = true → c = ' ') ∧ List.Chain' wsPair l

def headNonWs (l : List Char) : Prop := ∀ c, l.head? = some c → isPySpace c = false

/-! ### Helper lemmas -/

theorem completeness_le_four (f : FieldRec) : completeness f ≤ 4 := by
  unfold completeness
  split_ifs <;> omega

theorem char_toNat_ofNat {n : Nat} (h : n.isValidChar) : (Char.ofNat n).toNat = n := by
  simp [Char.ofNat, h, Char.ofNatAux, Char.toNat, UInt32.toNat, BitVec.ofNatLt]

theorem isUpper_iff_toNat (c : Char) : c.isUpper = true ↔ 65 ≤ c.toNat ∧ c.toNat ≤ 90 := by
  simp [Char.isUpper, UInt32.le_def, BitVec.le_def, Char.toNat, UInt32.toNat]

theorem isLower_iff_toNat (c : Char) : c.isLower = true ↔ 97 ≤ c.toNat ∧ c.toNat ≤ 122 := by
  simp [Char.isLower, UInt32.le_def, BitVec.le_def, Char.toNat, UInt32.toNat]

theorem isDigit_iff_toNat (c : Char) : c.isDigit = true ↔ 48 ≤ c.toNat ∧ c.toNat ≤ 57 := by
  simp [Char.isDigit, UInt32.le_def, BitVec.le_def, Char.toNat, UInt32.toNat]

theorem toUpper_isUpper {c : Char} (h : c.isAlpha = true) : (Char.toUpper c).isUpper = true := by
  rw [Char.isAlpha, Bool.or_eq_true] at h
  unfold Char.toUpper
  rcases h with h | h
  · have hb := (isUpper_iff_toNat c).mp h
    rw [if_neg (by omega)]
    exact h
  · have hb := (isLower_iff_toNat c).mp h
    rw [if_pos (by omega)]
    have hv : (c.toNat - 32).isValidChar := Or.inl (by omega)
    rw [isUpper_iff_toNat, char_toNat_ofNat hv]
    omega

theorem isDigitSlash_of_isUpper {c : Char} (h : c.isUpper = true) : isDigitSlash c = false := by
  have hb := (isUpper_iff_toNat c).mp h
  unfold isDigitSlash
  rw [Bool.or_eq_false_iff]
  constructor
  · rw [Bool.eq_false_iff]
    intro hd
    have := (isDigit_iff_toNat c).mp hd
    omega
  · rw [Bool.eq_false_iff]
    intro hs
    rw [beq_iff_eq] at hs
    subst hs
    exact absurd h (by decide)

theorem takeWhile_append_all {p : Char → Bool} {a : List Char} (b : List Char)
    (h : ∀ c ∈ a, p c = true) : (a ++ b).takeWhile p = a ++ b.takeWhile p := by
  induction a with
  | nil => simp
  | cons c a ih =>
    have hc : p c = true := h c (by simp)
    simp only [List.cons_append, List.takeWhile_cons, hc, if_true]
    rw [ih (fun d hd => h d (by simp [hd]))]

theorem searchAux_some {f : List Char → Option (List Char)} :
    ∀ {l r : List Char}, searchAux f l = some r → ∃ l2, f l2 = some r := by
  intro l
  induction l with
  | nil => intro r h; exact ⟨[], h⟩
  | cons c rest ih =>
    intro r h
    unfold searchAux at h
    split at h
    next g hf => exact ⟨c :: rest, hf.trans h⟩
    next hf => exact ih h

theorem matchAlt_mem : ∀ {ts : List (List Char)} {l t : List Char},
    matchAlt ts l = some t → t ∈ ts := by
  intro ts
  induction ts with
  | nil => intro l t h; simp [matchAlt] at h
  | cons u us ih =>
    intro l t h
    unfold matchAlt at h
    by_cases hp : u.isPrefixOf l
    · rw [if_pos hp] at h
      injection h with h
      exact h ▸ List.mem_cons_self u us
    · rw [if_neg hp] at h
      exact List.mem_cons_of_mem u (ih h)

theorem matchGenderAt_tokens {l t : List Char} (h : matchGenderAt l = some t) :
    t ∈ genderTokens := by
  unfold matchGenderAt at h
  split at h
  · split at h
    · exact matchAlt_mem h
    · exact absurd h (by simp)
  · exact absurd h (by simp)

/-! ### Claim theorems -/

/-- C10: a window containing a relation label and no standalone name label,
such as `Father Name: RAJAN`, yields both `name = RAJAN` (the unanchored
name pattern matches the trailing `Name: ...` part of the relation label)
and `relation_name = RAJAN` with `relation_type = S/O`. -/
theorem name_from_relation_label :
    (parse_block (("Father Name: RAJAN").toList)).name = ("RAJAN").toList ∧
    (parse_block (("Father Name: RAJAN").toList)).relation_name = ("RAJAN").toList ∧
    (parse_block (("Father Name: RAJAN").toList)).relation_type = ("S/O").toList := by
  decide

/-- C4 counterexample: the labeled-field patterns are case-sensitive, so a
window containing `name: RAMESH` (or `NAME: RAMESH`) does not yield the
same extracted name as one containing `Name: RAMESH`, refuting the claimed
case-insensitive label matching. -/
theorem label_case_cex :
    (parse_block (("name: RAMESH").toList)).name = [] ∧
    (parse_block (("NAME: RAMESH").toList)).name = [] ∧
    (parse_block (("Name: RAMESH").toList)).name = ("RAMESH").toList ∧
    (parse_block (("name: RAMESH").toList)).name ≠ (parse_block (("Name: RAMESH").toList)).name := by
  decide

/-- C4 amended: each labeled-field pattern matches its label
case-sensitively (exact literal text) and accepts any one separator
character among `:`, `+`, `!` between label and value; windows whose label
appears in a different letter case yield the empty field. -/
theorem label_separators_case_sensitive :
    (parse_block (("Name:RAJU").toList)).name = ("RAJU").toList ∧
    (parse_block (("Name+RAJU").toList)).name = ("RAJU").toList ∧
    (parse_block (("Name!RAJU").toList)).name = ("RAJU").toList ∧
    (parse_block (("name:RAJU").toList)).name = [] ∧
    (parse_block (("NAME:RAJU").toList)).name = [] ∧
    (parse_block (("Age:34").toList)).age = ("34").toList ∧
    (parse_block (("Age+34").toList)).age = ("34").toList ∧
    (parse_block (("Age!34").toList)).age = ("34").toList ∧
    (parse_block (("age:34").toList)).age = [] ∧
    (parse_block (("AGE:34").toList)).age = [] ∧
    (parse_block (("Gender:Male").toList)).gender = ("Male").toList ∧
    (parse_block (("Gender+Male").toList)).gender = ("Male").toList ∧
    (parse_block (("gender:Male").toList)).gender = [] ∧
    (parse_block (("GENDER:Male").toList)).gender = [] ∧
    (parse_block (("House Number:45").toList)).house_number = ("45").toList ∧
    (parse_block (("House Number+45").toList)).house_number = ("45").toList ∧
    (parse_block (("house number:45").toList)).house_number = [] ∧
    (parse_block (("Father Name:KUMAR").toList)).relation_type = ("S/O").toList ∧
    (parse_block (("FATHER NAME:KUMAR").toList)).relation_type = [] := by
  decide

/-- C6 counterexample: a lowercase `male` after the gender label is not
captured by the (case-sensitive) gender alternation, so it yields the
empty string rather than the claimed `Male`. -/
theorem gender_lowercase_cex :
    (parse_block (("Gender: male").toList)).gender ≠ ("Male").toList ∧
    (parse_block (("Gender: male").toList)).gender = [] ∧
    (parse_block (("Gender: Male").toList)).gender = ("Male").toList := by
  decide

/-- C6 amended: the extracted gender is always one of `Male`, `Female` or
empty; the captured value must be exactly one of the two English tokens or
the two Tamil tokens, matched case-sensitively; Tamil tokens map to
`Male`/`Female`; English tokens pass through (capitalize is the identity
on them); a lowercase `male` after the label yields the empty string
because the pattern does not match it. -/
theorem gender_value_range (block : List Char) :
    ((parse_block block).gender = ("Male").toList ∨
     (parse_block block).gender = ("Female").toList ∨
     (parse_block block).gender = []) ∧
    (parse_block (("Gender:ஆண்").toList)).gender = ("Male").toList ∧
    (parse_block (("Gender:பெண்").toList)).gender = ("Female").toList ∧
    (parse_block (("Gender:Male").toList)).gender = ("Male").toList ∧
    (parse_block (("Gender:Female").toList)).gender = ("Female").toList ∧
    (parse_block (("Gender: male").toList)).gender = [] := by
  refine ⟨?_, by decide, by decide, by decide, by decide, by decide⟩
  have hg : (parse_block block).gender = genderOf block := rfl
  rw [hg]
  unfold genderOf
  cases hs : searchAux matchGenderAt block with
  | none =>
    right; right
    simp only []
    decide
  | some t =>
    obtain ⟨l2, hf⟩ := searchAux_some hs
    have ht := matchGenderAt_tokens hf
    simp only []
    simp only [genderTokens, List.mem_cons, List.not_mem_nil, or_false] at ht
    rcases ht with rfl | rfl | rfl | rfl
    · left; decide
    · right; left; decide
    · left; decide
    · right; left; decide

/-- C7 counterexample: the window `Father Name:-` produces a record with
`relation_type = S/O` but empty `relation_name` (the captured value `-` is
cleaned to the empty string), refuting the both-set-or-both-empty pairing
invariant. -/
theorem relation_pairing_cex :
    (parse_block (("Father Name:-").toList)).relation_type = ("S/O").toList ∧
    (parse_block (("Father Name:-").toList)).relation_name = [] ∧
    ("S/O").toList ≠ ([] : List Char) := by
  decide

/-- C7 amended: a relation name never appears without a relation type
(`relation_name` non-empty implies `relation_type` non-empty, and an empty
type forces an empty name), but the converse can fail: `relation_type`
may be set while `relation_name` is empty when the captured relation value
cleans to the empty string. -/
theorem relation_pairing_amended (block : List Char) :
    ((parse_block block).relation_name ≠ [] → (parse_block block).relation_type ≠ []) ∧
    ((parse_block block).relation_type = [] → (parse_block block).relation_name = []) ∧
    ((parse_block block).relation_type = ("S/O").toList ∨
     (parse_block block).relation_type = ("W/O").toList ∨
     (parse_block block).relation_type = ("C/O").toList ∨
     (parse_block block).relation_type = []) := by
  have h1 : (parse_block block).relation_type = (relationOf block).1 := rfl
  have h2 : (parse_block block).relation_name = (relationOf block).2 := rfl
  rw [h1, h2]
  unfold relationOf
  have hso : ("S/O").toList ≠ ([] : List Char) := by decide
  have hwo : ("W/O").toList ≠ ([] : List Char) := by decide
  have hco : ("C/O").toList ≠ ([] : List Char) := by decide
  cases searchAux matchFatherAt block with
  | some g => exact ⟨fun _ => hso, fun hc => absurd hc hso, Or.inl rfl⟩
  | none =>
    cases searchAux matchHusbandAt block with
    | some g => exact ⟨fun _ => hwo, fun hc => absurd hc hwo, Or.inr (Or.inl rfl)⟩
    | none =>
      cases searchAux matchMotherAt block with
      | some g => exact ⟨fun _ => hco, fun hc => absurd hc hco, Or.inr (Or.inr (Or.inl rfl))⟩
      | none => exact ⟨fun hn => absurd rfl hn, fun _ => rfl, Or.inr (Or.inr (Or.inr rfl))⟩

/-- Witness for the amended C7 theorem at a concrete window. -/
theorem relation_pairing_amended_witness :
    (parse_block (("Father Name:RAJAN").toList)).relation_type ≠ [] :=
  (relation_pairing_amended (("Father Name:RAJAN").toList)).1 (by decide)

/-- C9: the extraction core is total: a missing field label yields an
empty field value (per field, independently), and a page with no
voter-id anchors yields an empty record sequence rather than an error. -/
theorem extraction_total (block text : List Char) (n : Nat) :
    (searchAux matchNameAt block = none → (parse_block block).name = []) ∧
    (searchAux matchAgeAt block = none → (parse_block block).age = []) ∧
    (searchAux matchGenderAt block = none → (parse_block block).gender = []) ∧
    (searchAux matchHouseAt block = none → (parse_block block).house_number = []) ∧
    (searchAux matchFatherAt block = none → searchAux matchHusbandAt block = none →
      searchAux matchMotherAt block = none →
      (parse_block block).relation_type = [] ∧ (parse_block block).relation_name = []) ∧
    (finditerVoterId (collapseHT text) = [] → parse_page text n = []) := by
  refine ⟨?_, ?_, ?_, ?_, ?_, ?_⟩
  · intro h
    show nameOf block = []
    unfold nameOf
    rw [h]
    decide
  · intro h
    show ageOf block = []
    unfold ageOf
    rw [h]
  · intro h
    show genderOf block = []
    unfold genderOf
    rw [h]
    decide
  · intro h
    show houseOf block = []
    unfold houseOf
    rw [h]
  · intro h1 h2 h3
    have hrel : relationOf block = ([], []) := by
      unfold relationOf
      rw [h1, h2, h3]
    exact ⟨congrArg Prod.fst hrel, congrArg Prod.snd hrel⟩
  · intro h
    simp only [parse_page]
    rw [h]
    rfl

/-- Witness for the totality theorem at concrete inputs. -/
theorem extraction_total_witness :
    (parse_block (("zz").toList)).name = [] ∧ parse_page (("zz").toList) 5 = [] :=
  ⟨(extraction_total (("zz").toList) (("zz").toList) 5).1 (by decide),
   (extraction_total (("zz").toList) (("zz").toList) 5).2.2.2.2.2 (by decide)⟩

/-- C3: for every anchor, the record kept is the candidate with maximum
completeness among the three extractions (after-window, before-window,
combined window), completeness is at most 4, and ties keep the earliest
candidate in evaluation order (after, before, combined). -/
theorem candidate_selection (beforeB afterB : List Char) :
    pyMax3 (candidatesOf beforeB afterB) ∈ candidatesOf beforeB afterB ∧
    (∀ r ∈ candidatesOf beforeB afterB,
      completeness r ≤ completeness (pyMax3 (candidatesOf beforeB afterB))) ∧
    (∀ r ∈ candidatesOf beforeB afterB, completeness r ≤ 4) ∧
    (completeness (parse_block beforeB) ≤ completeness (parse_block afterB) →
      completeness (parse_block (beforeB ++ '\n' :: afterB)) ≤ completeness (parse_block afterB) →
      pyMax3 (candidatesOf beforeB afterB) = parse_block afterB) ∧
    (completeness (parse_block afterB) < completeness (parse_block beforeB) →
      completeness (parse_block (beforeB ++ '\n' :: afterB)) ≤ completeness (parse_block beforeB) →
      pyMax3 (candidatesOf beforeB afterB) = parse_block beforeB) ∧
    (completeness (parse_block afterB) < completeness (parse_block (beforeB ++ '\n' :: afterB)) →
      completeness (parse_block beforeB) < completeness (parse_block (beforeB ++ '\n' :: afterB)) →
      pyMax3 (candidatesOf beforeB afterB) = parse_block (beforeB ++ '\n' :: afterB)) := by
  have hmax : pyMax3 (candidatesOf beforeB afterB) =
      if completeness (parse_block afterB) < completeness (parse_block beforeB) then
        (if completeness (parse_block beforeB) <
            completeness (parse_block (beforeB ++ '\n' :: afterB)) then
          parse_block (beforeB ++ '\n' :: afterB)
        else parse_block beforeB)
      else
        (if completeness (parse_block afterB) <
            completeness (parse_block (beforeB ++ '\n' :: afterB)) then
          parse_block (beforeB ++ '\n' :: afterB)
        else parse_block afterB) := by
    by_cases h1 : completeness (parse_block afterB) < completeness (parse_block beforeB) <;>
      simp [candidatesOf, pyMax3, pyMaxGo, h1]
  refine ⟨?_, ?_, ?_, ?_, ?_, ?_⟩
  · rw [hmax]
    unfold candidatesOf
    split_ifs <;> simp
  · intro r hr
    rw [hmax]
    unfold candidatesOf at hr
    simp only [List.mem_cons, List.not_mem_nil, or_false] at hr
    rcases hr with rfl | rfl | rfl <;> split_ifs <;> omega
  · intro r _
    exact completeness_le_four r
  · intro hab hcb
    rw [hmax, if_neg (by omega), if_neg (by omega)]
  · intro hba hcb
    rw [hmax, if_pos hba, if_neg (by omega)]
  · intro hac hbc
    rw [hmax]
    by_cases h1 : completeness (parse_block afterB) < completeness (parse_block beforeB)
    · rw [if_pos h1, if_pos hbc]
    · rw [if_neg h1, if_pos hac]

/-- Witness for the candidate-selection theorem at concrete windows: the
before-window extraction wins when it is more complete than the other
two. -/
theorem candidate_selection_witness :
    pyMax3 (candidatesOf (("Name:RAVI Age:30").toList) (("zz").toList)) =
      parse_block (("Name:RAVI Age:30").toList) ∧
    completeness (parse_block (("zz").toList)) ≤ 4 :=
  ⟨(candidate_selection (("Name:RAVI Age:30").toList) (("zz").toList)).2.2.2.2.1
      (by decide) (by decide),
   (candidate_selection (("Name:RAVI Age:30").toList) (("zz").toList)).2.2.1
      (parse_block (("zz").toList)) (by simp [candidatesOf])⟩

theorem takeWhile_all_eq_self {p : Char → Bool} {a : List Char}
    (h : ∀ c ∈ a, p c = true) : a.takeWhile p = a := by
  have := takeWhile_append_all (p := p) (a := a) [] h
  simpa using this

theorem houseShapeOk_num {t : List Char}
    (hne : ¬(t.takeWhile isDigitSlash = [])) :
    houseShapeOk (t.takeWhile isDigitSlash) = true := by
  have hall : ∀ c ∈ t.takeWhile isDigitSlash, isDigitSlash c = true :=
    fun c hc => List.mem_takeWhile_imp hc
  simp only [houseShapeOk]
  rw [takeWhile_all_eq_self hall, List.drop_length]
  simp [hne]

theorem houseShapeOk_num_letter {t : List Char} {c : Char}
    (hne : ¬(t.takeWhile isDigitSlash = [])) (hc : c.isAlpha = true) :
    houseShapeOk (t.takeWhile isDigitSlash ++ [c.toUpper]) = true := by
  have hall : ∀ x ∈ t.takeWhile isDigitSlash, isDigitSlash x = true :=
    fun x hx => List.mem_takeWhile_imp hx
  have hup : (Char.toUpper c).isUpper = true := toUpper_isUpper hc
  have hnd : isDigitSlash (Char.toUpper c) = false := isDigitSlash_of_isUpper hup
  simp only [houseShapeOk]
  rw [takeWhile_append_all _ hall]
  have h1 : ([c.toUpper].takeWhile isDigitSlash) = [] := by
    simp [List.takeWhile_cons, hnd]
  rw [h1, List.append_nil, List.drop_left]
  simp [hne, hup]

/-- C5: `normalize_house_no` returns either the empty string or a string
of one or more characters drawn from digits and `/` optionally followed by
exactly one trailing uppercase letter; any input whose transformed form
(strip, comma removal, hyphen-to-slash, slash collapsing) does not match
that shape is rejected to the empty string. -/
theorem house_number_shape (h : List Char) :
    (normalize_house_no h = [] ∨ houseShapeOk (normalize_house_no h) = true) ∧
    (matchHouseShape (houseTransform h) = none → normalize_house_no h = []) := by
  constructor
  · by_cases hh : h = []
    · left
      rw [normalize_house_no, if_pos hh]
    · rw [normalize_house_no, if_neg hh]
      cases hm : matchHouseShape (houseTransform h) with
      | none => left; rfl
      | some ns =>
        right
        obtain ⟨num, suf⟩ := ns
        simp only [matchHouseShape] at hm
        split at hm
        · exact absurd hm (by simp)
        · rename_i hne
          split at hm
          · cases hm
            simpa using houseShapeOk_num hne
          · rename_i c
            split at hm
            · cases hm
              simpa using houseShapeOk_num hne
            · split at hm
              · rename_i hca
                cases hm
                simpa using houseShapeOk_num_letter hne hca
              · exact absurd hm (by simp)
          · rename_i c d
            split at hm
            · rename_i hcd
              rw [Bool.and_eq_true] at hcd
              cases hm
              simpa using houseShapeOk_num_letter hne hcd.1
            · exact absurd hm (by simp)
          · exact absurd hm (by simp)
  · intro hm
    by_cases hh : h = []
    · rw [normalize_house_no, if_pos hh]
    · rw [normalize_house_no, if_neg hh, hm]

/-- Witness for the house-number shape theorem at concrete inputs. -/
theorem house_number_shape_witness :
    normalize_house_no (("House#9").toList) = [] ∧
    (normalize_house_no (("12-5,").toList) = [] ∨
      houseShapeOk (normalize_house_no (("12-5,").toList)) = true) :=
  ⟨(house_number_shape (("House#9").toList)).2 (by decide),
   (house_number_shape (("12-5,").toList)).1⟩

/-- C1 counterexample: in the two-page end-to-end scenario the cleaned
output does have exactly one record, but its name is the whole greedily
captured tail of the line, not `RAMESH KUMAR`. -/
theorem scenario_cex :
    (cleanRows scenarioRaw).length = 1 ∧
    (cleanRows scenarioRaw).map Row.name ≠ [("RAMESH KUMAR").toList] := by
  decide

/-- C1 amended: the raw output of the scenario has exactly 2 records and
the cleaned output exactly 1 (the first-encountered record, from page 1,
with voter id AB1234567); both raw records and the cleaned record have
`house_number = 45A`, and the extracted name is
`RAMESH KUMAR Age:34 Gender:Male House Number:45A` (the name pattern
captures greedily to the end of the line). -/
theorem scenario_amended :
    scenarioRaw.length = 2 ∧
    scenarioRaw.map Row.house_number = [("45A").toList, ("45A").toList] ∧
    scenarioRaw.map Row.voter_id = [("AB1234567").toList, ("CD7654321").toList] ∧
    scenarioRaw.map Row.page = [1, 2] ∧
    (cleanRows scenarioRaw).length = 1 ∧
    (cleanRows scenarioRaw).map Row.voter_id = [("AB1234567").toList] ∧
    (cleanRows scenarioRaw).map Row.page = [1] ∧
    (cleanRows scenarioRaw).map Row.house_number = [("45A").toList] ∧
    (cleanRows scenarioRaw).map Row.name =
      [("RAMESH KUMAR Age:34 Gender:Male House Number:45A").toList] := by
  decide

theorem cleanRowsGo_cons (seen : List (List Char × List Char)) (r : Row) (rs : List Row) :
    cleanRowsGo seen (r :: rs) =
      if stripPy r.name = [] ∨ stripPy r.house_number = [] then cleanRowsGo seen rs
      else if rowKey r ∈ seen then cleanRowsGo seen rs
      else r :: cleanRowsGo (rowKey r :: seen) rs := rfl

theorem cleanRowsGo_spec (rows : List Row) :
    ∀ seen : List (List Char × List Char),
      cleanRowsGo seen rows =
        dedupFirstKey (rows.filter fun r => validRow r && !(decide (rowKey r ∈ seen))) := by
  induction rows with
  | nil => intro seen; simp [cleanRowsGo, dedupFirstKey]
  | cons r rs ih =>
    intro seen
    by_cases hv : stripPy r.name = [] ∨ stripPy r.house_number = []
    · have hvr : validRow r = false := by
        unfold validRow
        rcases hv with h | h <;> simp [h]
      rw [cleanRowsGo_cons, if_pos hv, List.filter_cons, hvr]
      simp only [Bool.false_and, Bool.false_eq_true, if_false]
      exact ih seen
    · obtain ⟨h1, h2⟩ := not_or.mp hv
      have hvr : validRow r = true := by simp [validRow, h1, h2]
      by_cases hs : rowKey r ∈ seen
      · rw [cleanRowsGo_cons, if_neg hv, if_pos hs, List.filter_cons]
        have hcond : (validRow r && !(decide (rowKey r ∈ seen))) = false := by
          simp [hvr, hs]
        rw [hcond]
        simp only [Bool.false_eq_true, if_false]
        exact ih seen
      · rw [cleanRowsGo_cons, if_neg hv, if_neg hs, List.filter_cons]
        have hcond : (validRow r && !(decide (rowKey r ∈ seen))) = true := by
          simp [hvr, hs]
        rw [hcond]
        simp only [if_true]
        rw [dedupFirstKey, ih (rowKey r :: seen), List.filter_filter]
        refine congrArg (fun l => r :: dedupFirstKey l) (List.filter_congr ?_)
        intro x _
        by_cases hx1 : rowKey x = rowKey r <;> by_cases hx2 : rowKey x ∈ seen <;>
          cases hvx : validRow x <;> simp [List.mem_cons, hx1, hx2, hvx]

theorem cleanRowsGo_sublist (rows : List Row) :
    ∀ seen, (cleanRowsGo seen rows).Sublist rows := by
  induction rows with
  | nil => intro seen; simp [cleanRowsGo]
  | cons r rs ih =>
    intro seen
    unfold cleanRowsGo
    split_ifs with h1 h2
    · exact (ih seen).cons r
    · exact (ih seen).cons r
    · exact (ih _).cons₂ r

theorem cleanRowsGo_valid (rows : List Row) :
    ∀ seen, ∀ r ∈ cleanRowsGo seen rows,
      stripPy r.name ≠ [] ∧ stripPy r.house_number ≠ [] := by
  induction rows with
  | nil => intro seen r hr; simp [cleanRowsGo] at hr
  | cons x rs ih =>
    intro seen r hr
    unfold cleanRowsGo at hr
    split_ifs at hr with h1 h2
    · exact ih seen r hr
    · exact ih seen r hr
    · rcases List.mem_cons.mp hr with rfl | hr2
      · exact ⟨fun hc => h1 (Or.inl hc), fun hc => h1 (Or.inr hc)⟩
      · exact ih _ r hr2

/-- C2: the cleaned output is exactly the first-wins deduplication, by key
(uppercased trimmed name, trimmed house number), of the subsequence of
records whose trimmed name and trimmed house number are both non-empty,
in original encounter order; consequently the cleaned output is a
subsequence of the input and none of its records has an empty (or
whitespace-only) name or house number. -/
theorem cleaning_postcondition (rows : List Row) :
    cleanRows rows = dedupFirstKey (rows.filter validRow) ∧
    (cleanRows rows).Sublist rows ∧
    (∀ r ∈ cleanRows rows, stripPy r.name ≠ [] ∧ stripPy r.house_number ≠ [] ∧
      r.name ≠ [] ∧ r.house_number ≠ []) := by
  refine ⟨?_, cleanRowsGo_sublist rows [], ?_⟩
  · rw [cleanRows, cleanRowsGo_spec rows []]
    congr 1
    apply List.filter_congr
    intro x _
    simp [List.not_mem_nil]
  · intro r hr
    obtain ⟨hn, hh⟩ := cleanRowsGo_valid rows [] r hr
    refine ⟨hn, hh, ?_, ?_⟩
    · intro hc
      exact hn (by rw [hc]; rfl)
    · intro hc
      exact hh (by rw [hc]; rfl)

/-- Witness for the cleaning postcondition: two records sharing the dedup
key (up to case) across different voter ids and pages collapse to the
first one, whose trimmed fields are non-empty. -/
theorem cleaning_postcondition_witness :
    cleanRows [sampleRowA, sampleRowB] =
      dedupFirstKey ([sampleRowA, sampleRowB].filter validRow) ∧
    stripPy sampleRowA.name ≠ [] :=
  ⟨(cleaning_postcondition [sampleRowA, sampleRowB]).1,
   ((cleaning_postcondition [sampleRowA, sampleRowB]).2.2 sampleRowA (by decide)).1⟩

/-! ### C8: idempotence of `clean` -/

theorem collapseRunsGo_cons (p : Char → Bool) (rep : Char) (b : Bool) (c : Char)
    (rest : List Char) :
    collapseRunsGo p rep b (c :: rest) =
      if p c then
        (if b then collapseRunsGo p rep true rest
         else rep :: collapseRunsGo p rep true rest)
      else c :: collapseRunsGo p rep false rest := rfl

theorem dropWhile_dropWhile (p : Char → Bool) :
    ∀ l : List Char, (l.dropWhile p).dropWhile p = l.dropWhile p := by
  intro l
  induction l with
  | nil => rfl
  | cons c r ih =>
    by_cases hc : p c <;> simp [List.dropWhile_cons, hc, ih]

theorem dropWhile_head_false {p : Char → Bool} :
    ∀ {l t : List Char} {c : Char}, List.dropWhile p l = c :: t → p c = false := by
  intro l
  induction l with
  | nil => intro t c h; exact absurd h (by simp)
  | cons d r ih =>
    intro t c h
    rw [List.dropWhile_cons] at h
    by_cases hd : p d
    · rw [if_pos hd] at h
      exact ih h
    · rw [if_neg hd] at h
      injection h with h1 _
      rw [← h1]
      exact Bool.eq_false_iff.mpr hd

theorem dropWhile_eq_self_of_head {p : Char → Bool} {l : List Char}
    (h : ∀ c t, l = c :: t → p c = false) : l.dropWhile p = l := by
  cases l with
  | nil => rfl
  | cons c t => rw [List.dropWhile_cons, if_neg (by simp [h c t rfl])]

theorem rdropW_idem (p : Char → Bool) (l : List Char) :
    rdropW p (rdropW p l) = rdropW p l := by
  unfold rdropW
  rw [List.reverse_reverse, dropWhile_dropWhile]

theorem rdropW_decomp (p : Char → Bool) (l : List Char) :
    l = rdropW p l ++ (l.reverse.takeWhile p).reverse := by
  unfold rdropW
  conv_lhs => rw [← List.reverse_reverse l]
  conv_lhs => rw [← List.takeWhile_append_dropWhile (p := p) (l := l.reverse)]
  rw [List.reverse_append]

theorem stripPy_decomp (l : List Char) :
    l = l.takeWhile isPySpace ++ stripPy l ++
      ((l.dropWhile isPySpace).reverse.takeWhile isPySpace).reverse := by
  unfold stripPy
  conv_lhs => rw [← List.takeWhile_append_dropWhile (p := isPySpace) (l := l)]
  conv_lhs => rw [rdropW_decomp isPySpace (l.dropWhile isPySpace)]
  rw [List.append_assoc]

theorem stripPy_idem (l : List Char) : stripPy (stripPy l) = stripPy l := by
  have hz : (stripPy l).dropWhile isPySpace = stripPy l := by
    apply dropWhile_eq_self_of_head
    intro c t hct
    have hdec := rdropW_decomp isPySpace (l.dropWhile isPySpace)
    rw [show rdropW isPySpace (l.dropWhile isPySpace) = stripPy l from rfl, hct] at hdec
    exact dropWhile_head_false hdec
  show rdropW isPySpace ((stripPy l).dropWhile isPySpace) = stripPy l
  rw [hz]
  show rdropW isPySpace (rdropW isPySpace (l.dropWhile isPySpace)) = _
  rw [rdropW_idem]
  rfl

theorem embIn_stripPy (x : List Char) : embIn x (stripPy x) :=
  ⟨x.takeWhile isPySpace, ((x.dropWhile isPySpace).reverse.takeWhile isPySpace).reverse,
    stripPy_decomp x⟩

theorem embIn_rstripDT (x : List Char) : embIn x (rstripDT x) :=
  ⟨[], (x.reverse.takeWhile isDashTilde).reverse, by
    rw [List.nil_append]
    exact rdropW_decomp isDashTilde x⟩

theorem embIn_take (x : List Char) (j : Nat) : embIn x (x.take j) :=
  ⟨[], x.drop j, by rw [List.nil_append, List.take_append_drop]⟩

theorem embIn_refl (x : List Char) : embIn x x := ⟨[], [], by simp⟩

theorem embIn_trans {x m m' : List Char} (h1 : embIn x m) (h2 : embIn m m') :
    embIn x m' := by
  obtain ⟨u, v, rfl⟩ := h1
  obtain ⟨u', v', rfl⟩ := h2
  exact ⟨u ++ u', v' ++ v, by simp [List.append_assoc]⟩

theorem embIn_cut (x : List Char) : embIn x (cutNameLabel x) := by
  unfold cutNameLabel
  cases findLabelIdx x with
  | some j => exact embIn_take x j
  | none => exact embIn_refl x

theorem labelAt_nil : labelAt [] = false := rfl

theorem findLabelIdx_cons (c : Char) (rest : List Char) :
    findLabelIdx (c :: rest) =
      if labelAt (c :: rest) then some 0 else (findLabelIdx rest).map (· + 1) := rfl

theorem findLabelIdx_none_drop {l : List Char} (h : findLabelIdx l = none) :
    ∀ k, labelAt (l.drop k) = false := by
  induction l with
  | nil => intro k; rw [List.drop_nil]; exact labelAt_nil
  | cons c rest ih =>
    rw [findLabelIdx_cons] at h
    by_cases hla : labelAt (c :: rest)
    · rw [if_pos hla] at h
      exact absurd h (by simp)
    · rw [if_neg hla] at h
      have hr : findLabelIdx rest = none := by
        cases hx : findLabelIdx rest with
        | none => rfl
        | some j => rw [hx] at h; exact absurd h (by simp)
      intro k
      cases k with
      | zero => rw [List.drop_zero]; exact Bool.eq_false_iff.mpr hla
      | succ k0 => rw [List.drop_succ_cons]; exact ih hr k0

theorem findLabelIdx_some_drop {l : List Char} :
    ∀ {j : Nat}, findLabelIdx l = some j → labelAt (l.drop j) = true := by
  induction l with
  | nil => intro j h; exact Option.noConfusion h
  | cons c rest ih =>
    intro j h
    rw [findLabelIdx_cons] at h
    by_cases hla : labelAt (c :: rest)
    · rw [if_pos hla] at h
      injection h with h
      rw [← h, List.drop_zero]
      exact hla
    · rw [if_neg hla] at h
      cases hx : findLabelIdx rest with
      | none => rw [hx] at h; exact absurd h (by simp)
      | some j0 =>
        rw [hx] at h
        have h2 : j0 + 1 = j := by simpa using h
        rw [← h2, List.drop_succ_cons]
        exact ih hx

theorem findLabelIdx_some_min {l : List Char} :
    ∀ {j : Nat}, findLabelIdx l = some j → ∀ i, i < j → labelAt (l.drop i) = false := by
  induction l with
  | nil => intro j h; exact Option.noConfusion h
  | cons c rest ih =>
    intro j h i hij
    rw [findLabelIdx_cons] at h
    by_cases hla : labelAt (c :: rest)
    · rw [if_pos hla] at h
      injection h with h
      omega
    · rw [if_neg hla] at h
      cases hx : findLabelIdx rest with
      | none => rw [hx] at h; exact absurd h (by simp)
      | some j0 =>
        rw [hx] at h
        have h2 : j0 + 1 = j := by simpa using h
        cases i with
        | zero => rw [List.drop_zero]; exact Bool.eq_false_iff.mpr hla
        | succ i0 =>
          rw [List.drop_succ_cons]
          exact ih hx i0 (by omega)

theorem dropWhile_append_cons {p : Char → Bool} :
    ∀ {l t : List Char} {c : Char} (l₂ : List Char),
      List.dropWhile p l = c :: t → List.dropWhile p (l ++ l₂) = c :: (t ++ l₂) := by
  intro l
  induction l with
  | nil => intro t c l₂ h; exact absurd h (by simp)
  | cons d r ih =>
    intro t c l₂ h
    rw [List.dropWhile_cons] at h
    by_cases hd : p d
    · rw [if_pos hd] at h
      rw [List.cons_append, List.dropWhile_cons, if_pos hd]
      exact ih l₂ h
    · rw [if_neg hd] at h
      injection h with h1 h2
      rw [List.cons_append, List.dropWhile_cons, if_neg hd, h1, h2]

theorem labelAt_append {m w : List Char} (h : labelAt m = true) :
    labelAt (m ++ w) = true := by
  match m with
  | [] => exact absurd h (by simp [labelAt])
  | [c1] => exact absurd h (by simp [labelAt])
  | [c1, c2] => exact absurd h (by simp [labelAt])
  | [c1, c2, c3] => exact absurd h (by simp [labelAt])
  | c1 :: c2 :: c3 :: c4 :: rest =>
    rw [show labelAt (c1 :: c2 :: c3 :: c4 :: rest) = (isNameCI c1 c2 c3 c4 && sepAfterWs rest) from rfl,
      Bool.and_eq_true] at h
    obtain ⟨hname, hsep⟩ := h
    show (isNameCI c1 c2 c3 c4 && sepAfterWs (rest ++ w)) = true
    rw [Bool.and_eq_true]
    refine ⟨hname, ?_⟩
    unfold sepAfterWs at hsep ⊢
    cases hdw : List.dropWhile isPySpace rest with
    | nil => rw [hdw] at hsep; exact absurd hsep (by simp)
    | cons c0 t0 =>
      rw [hdw] at hsep
      rw [dropWhile_append_cons w hdw]
      exact hsep

theorem drop_append_len : ∀ (u w : List Char) (i : Nat),
    (u ++ w).drop (u.length + i) = w.drop i := by
  intro u
  induction u with
  | nil => intro w i; simp
  | cons c r ih =>
    intro w i
    rw [List.cons_append, List.length_cons,
      show r.length + 1 + i = (r.length + i) + 1 from by omega, List.drop_succ_cons]
    exact ih w i

theorem drop_append_le : ∀ (m w : List Char) (i : Nat), i ≤ m.length →
    (m ++ w).drop i = m.drop i ++ w := by
  intro m
  induction m with
  | nil =>
    intro w i h
    have h0 : i = 0 := Nat.le_zero.mp (by simpa using h)
    subst h0
    simp
  | cons c r ih =>
    intro w i h
    cases i with
    | zero => simp
    | succ i0 =>
      rw [List.cons_append, List.drop_succ_cons, List.drop_succ_cons]
      exact ih w i0 (by simpa using h)

theorem labelAt_drop_lt {t : List Char} {i : Nat} (h : labelAt (t.drop i) = true) :
    i < t.length := by
  by_contra hc
  rw [List.drop_eq_nil_of_le (by omega)] at h
  exact absurd h (by simp [labelAt_nil])

theorem findLabel_none_embed {b t u v : List Char}
    (hb : b = u ++ t ++ v) (hn : findLabelIdx b = none) : findLabelIdx t = none := by
  cases hcon : findLabelIdx t with
  | none => rfl
  | some i =>
    have hi := findLabelIdx_some_drop hcon
    have hlt : i < t.length := labelAt_drop_lt hi
    have hdrop : b.drop (u.length + i) = t.drop i ++ v := by
      rw [hb, List.append_assoc, drop_append_len, drop_append_le t v i (by omega)]
    have : labelAt (b.drop (u.length + i)) = true := by
      rw [hdrop]
      exact labelAt_append hi
    rw [findLabelIdx_none_drop hn (u.length + i)] at this
    exact absurd this (by simp)

theorem findLabel_some_embed {b t u v : List Char} {j : Nat}
    (hcut : b.take j = u ++ t ++ v) (hj : findLabelIdx b = some j) :
    findLabelIdx t = none := by
  cases hcon : findLabelIdx t with
  | none => rfl
  | some i =>
    have hi := findLabelIdx_some_drop hcon
    have hlt : i < t.length := labelAt_drop_lt hi
    have hlen : u.length + t.length + v.length = (b.take j).length := by
      rw [hcut]
      simp only [List.length_append]
    have hjlen : (b.take j).length ≤ j := by
      rw [List.length_take]
      omega
    have hb2 : b = u ++ (t ++ (v ++ b.drop j)) := by
      conv_lhs => rw [← List.take_append_drop j b]
      rw [hcut]
      simp [List.append_assoc]
    have hdrop : b.drop (u.length + i) = t.drop i ++ (v ++ b.drop j) := by
      conv_lhs => rw [hb2]
      rw [drop_append_len, drop_append_le t (v ++ b.drop j) i (by omega)]
    have hlab : labelAt (b.drop (u.length + i)) = true := by
      rw [hdrop]
      exact labelAt_append hi
    have hmin := findLabelIdx_some_min hj (u.length + i) (by omega)
    rw [hmin] at hlab
    exact absurd hlab (by simp)

theorem collapse_wsNorm : ∀ s : List Char,
    WsNorm (collapseRunsGo isPySpace ' ' false s) ∧
    (WsNorm (collapseRunsGo isPySpace ' ' true s) ∧
      headNonWs (collapseRunsGo isPySpace ' ' true s)) := by
  intro s
  induction s with
  | nil =>
    refine ⟨⟨?_, ?_⟩, ⟨?_, ?_⟩, ?_⟩ <;> simp [collapseRunsGo, WsNorm, headNonWs]
  | cons c rest ih =>
    obtain ⟨⟨ihm, ihc⟩, ⟨ihtm, ihtc⟩, ihth⟩ := ih
    by_cases hc : isPySpace c = true
    · have hfalse : collapseRunsGo isPySpace ' ' false (c :: rest) =
          ' ' :: collapseRunsGo isPySpace ' ' true rest := by
        rw [collapseRunsGo_cons, if_pos hc]
        rfl
      have htrue : collapseRunsGo isPySpace ' ' true (c :: rest) =
          collapseRunsGo isPySpace ' ' true rest := by
        rw [collapseRunsGo_cons, if_pos hc]
        rfl
      refine ⟨⟨?_, ?_⟩, ⟨?_, ?_⟩, ?_⟩
      · rw [hfalse]
        intro x hx hxs
        rcases List.mem_cons.mp hx with rfl | hx2
        · rfl
        · exact ihtm x hx2 hxs
      · rw [hfalse, List.chain'_cons']
        refine ⟨?_, ihtc⟩
        intro y hy
        intro ⟨_, hys⟩
        rw [ihth y hy] at hys
        exact absurd hys (by simp)
      · rw [htrue]
        exact ihtm
      · rw [htrue]
        exact ihtc
      · rw [htrue]
        exact ihth
    · have hcb : isPySpace c = false := Bool.eq_false_iff.mpr hc
      have hfalse : collapseRunsGo isPySpace ' ' false (c :: rest) =
          c :: collapseRunsGo isPySpace ' ' false rest := by
        rw [collapseRunsGo_cons, if_neg (by simp [hcb])]
      have htrue : collapseRunsGo isPySpace ' ' true (c :: rest) =
          c :: collapseRunsGo isPySpace ' ' false rest := by
        rw [collapseRunsGo_cons, if_neg (by simp [hcb])]
      have hmm : ∀ x ∈ c :: collapseRunsGo isPySpace ' ' false rest,
          isPySpace x = true → x = ' ' := by
        intro x hx hxs
        rcases List.mem_cons.mp hx with rfl | hx2
        · rw [hxs] at hcb
          exact absurd hcb (by simp)
        · exact ihm x hx2 hxs
      have hcc : List.Chain' wsPair (c :: collapseRunsGo isPySpace ' ' false rest) := by
        rw [List.chain'_cons']
        refine ⟨?_, ihc⟩
        intro y _
        intro ⟨hcs, _⟩
        rw [hcs] at hcb
        exact absurd hcb (by simp)
      refine ⟨⟨?_, ?_⟩, ⟨?_, ?_⟩, ?_⟩
      · rw [hfalse]; exact hmm
      · rw [hfalse]; exact hcc
      · rw [htrue]; exact hmm
      · rw [htrue]; exact hcc
      · rw [htrue]
        intro y hy
        simp only [List.head?_cons, Option.some.injEq] at hy
        rw [← hy]
        exact hcb

theorem collapse_eq_self : ∀ t : List Char, WsNorm t →
    (collapseRunsGo isPySpace ' ' false t = t ∧
      (headNonWs t → collapseRunsGo isPySpace ' ' true t = t)) := by
  intro t
  induction t with
  | nil => exact fun _ => ⟨rfl, fun _ => rfl⟩
  | cons c rest ih =>
    intro hn
    obtain ⟨hmem, hch⟩ := hn
    have hrest : WsNorm rest := ⟨fun x hx => hmem x (List.mem_cons_of_mem c hx), hch.tail⟩
    constructor
    · rw [collapseRunsGo_cons]
      by_cases hc : isPySpace c = true
      · rw [if_pos hc]
        have hcsp : c = ' ' := hmem c (List.mem_cons_self c rest) hc
        have hhead : headNonWs rest := by
          intro y hy
          have hp : wsPair c y := (List.chain'_cons'.mp hch).1 y hy
          by_contra hny
          exact hp ⟨hc, by simpa using hny⟩
        have hred : (if false = true then collapseRunsGo isPySpace ' ' true rest
            else ' ' :: collapseRunsGo isPySpace ' ' true rest) =
            ' ' :: collapseRunsGo isPySpace ' ' true rest := rfl
        rw [hred, (ih hrest).2 hhead, hcsp]
      · rw [if_neg hc, (ih hrest).1]
    · intro hh
      rw [collapseRunsGo_cons]
      have hc : isPySpace c = false := hh c rfl
      rw [if_neg (by simp [hc]), (ih hrest).1]

theorem wsNorm_of_append {u m v : List Char} (h : WsNorm (u ++ m ++ v)) : WsNorm m := by
  obtain ⟨hmem, hch⟩ := h
  refine ⟨fun c hc => hmem c (by simp [hc]), ?_⟩
  have h1 := (List.chain'_append.mp hch).1
  exact (List.chain'_append.mp h1).2.1

theorem wsNorm_of_embIn {x m : List Char} (he : embIn x m) (h : WsNorm x) : WsNorm m := by
  obtain ⟨u, v, rfl⟩ := he
  exact wsNorm_of_append h

/-- C8 counterexample: `clean` is not idempotent: cleaning `A- Name:B`
yields `A-` (the label-fragment removal exposes a trailing `-`), and
cleaning again strips that `-`, giving `A`. -/
theorem clean_not_idempotent_cex :
    clean (("A- Name:B").toList) = ("A-").toList ∧
    clean (clean (("A- Name:B").toList)) = ("A").toList ∧
    clean (clean (("A- Name:B").toList)) ≠ clean (("A- Name:B").toList) := by
  decide

set_option maxHeartbeats 1000000 in
/-- C8 amended: `clean` is idempotent on every string whose cleaned form
does not end in `-` or `~` (the only way a second pass can change the
result is the trailing `rstrip("-~")` acting on a `-`/`~` exposed by the
label-fragment removal of the first pass). -/
theorem clean_idem_amended (s : List Char)
    (h1 : (clean s).getLast? ≠ some '-') (h2 : (clean s).getLast? ≠ some '~') :
    clean (clean s) = clean s := by
  by_cases hs : s = []
  · subst hs
    simp [clean]
  · set t := clean s with ht
    have htdef : t = stripPy (cutNameLabel (stripPy (rstripDT (stripPy (collapseWs s))))) := by
      rw [ht, clean, if_neg hs]
    by_cases htn : t = []
    · rw [htn]
      simp [clean]
    · set b := stripPy (rstripDT (stripPy (collapseWs s))) with hb
      have e1 : embIn (collapseWs s) (stripPy (collapseWs s)) := embIn_stripPy _
      have e2 : embIn (stripPy (collapseWs s)) (rstripDT (stripPy (collapseWs s))) :=
        embIn_rstripDT _
      have e3 : embIn (rstripDT (stripPy (collapseWs s))) b := by
        rw [hb]
        exact embIn_stripPy _
      have e4 : embIn b (cutNameLabel b) := embIn_cut b
      have e5 : embIn (cutNameLabel b) t := by
        rw [htdef]
        exact embIn_stripPy _
      have hemb : embIn (collapseWs s) t :=
        embIn_trans (embIn_trans (embIn_trans (embIn_trans e1 e2) e3) e4) e5
      have hwst : WsNorm t := wsNorm_of_embIn hemb (collapse_wsNorm s).1
      have hid1 : collapseWs t = t := (collapse_eq_self t hwst).1
      have hid2 : stripPy t = t := by
        rw [htdef]
        exact stripPy_idem _
      have hid3 : rstripDT t = t := by
        show rdropW isDashTilde t = t
        unfold rdropW
        have hdw : List.dropWhile isDashTilde t.reverse = t.reverse := by
          apply dropWhile_eq_self_of_head
          intro c tt hct
          have hgl : t.getLast? = some c := by
            rw [← List.head?_reverse, hct]
            rfl
          have hc1 : c ≠ '-' := fun hcc => h1 (by rw [hgl, hcc])
          have hc2 : c ≠ '~' := fun hcc => h2 (by rw [hgl, hcc])
          simp [isDashTilde, hc1, hc2]
        rw [hdw, List.reverse_reverse]
      have hid4 : cutNameLabel t = t := by
        have hnl : findLabelIdx t = none := by
          cases hfb : findLabelIdx b with
          | none =>
            have hcb2 : cutNameLabel b = b := by
              unfold cutNameLabel
              rw [hfb]
            have htb : t = stripPy b := by
              rw [htdef, hcb2]
            obtain ⟨u, v, hdec⟩ : embIn b t := by
              rw [htb]
              exact embIn_stripPy b
            exact findLabel_none_embed hdec hfb
          | some j =>
            have hcb2 : cutNameLabel b = b.take j := by
              unfold cutNameLabel
              rw [hfb]
            have htb : t = stripPy (b.take j) := by
              rw [htdef, hcb2]
            obtain ⟨u, v, hdec⟩ : embIn (b.take j) t := by
              rw [htb]
              exact embIn_stripPy (b.take j)
            exact findLabel_some_embed hdec hfb
        unfold cutNameLabel
        rw [hnl]
      rw [clean, if_neg htn, hid1, hid2, hid3, hid2, hid4, hid2]

/-- Witness for the amended idempotence theorem at a concrete string. -/
theorem clean_idem_amended_witness :
    clean (clean (("RAVI KUMAR").toList)) = clean (("RAVI KUMAR").toList) :=
  clean_idem_amended (("RAVI KUMAR").toList) (by decide) (by decide)
